import Mathlib

/-!
Verification of the Therefore-Extractor synchronization and indexing pipeline.

This file gives a shallow embedding of the pure/data-flow core of the
repository and proves (or refutes) the specification claims about it:

* `chunk_text` mirrors `therefore_document_processor.chunk_text`
* the version-ledger reconciliation mirrors the row loop of
  `therefore_document_gatherer.get_therefore_documents_for_processing`
* `process_document` mirrors `therefore_document_processor.process_document`
* `query_all_category_documents` mirrors the pagination loop of
  `therefore_functions.query_all_category_documents`
* `get_all_categories` mirrors `therefore_functions.get_all_categories`
  together with the tree traversal `_get_items_of_type`
* the category allow-list test mirrors the truthiness branch of the gatherer.

HTTP, SQLite, the filesystem and the embedding model are environments: their
observable outcomes (responses, conversion results) are inputs to the
embedded functions.
-/

/-! ### Chunker (`therefore_document_processor.chunk_text`) -/

/-- Accumulator-style splitter on whitespace runs.  `splitWsGo cur cs` scans
`cs`, with `cur` holding the characters of the word currently being read in
reverse order.  Empty segments are dropped, which is exactly the behaviour of
Python's argumentless `str.split()` used in `chunk_text`. -/
def splitWsGo : List Char → List Char → List (List Char)
  | cur, [] => if cur = [] then [] else [cur.reverse]
  | cur, c :: cs =>
    if c.isWhitespace then
      if cur = [] then splitWsGo [] cs
      else cur.reverse :: splitWsGo [] cs
    else splitWsGo (c :: cur) cs

/-- Python `text.split()`: split on runs of whitespace, dropping empty
segments. -/
def pySplit (text : String) : List String :=
  (splitWsGo [] text.data).map (fun l => String.mk l)

/-- Python `range(0, stop, step)` for a positive `step`: the multiples of
`step` below `stop`, that is `ceil(stop / step)` values. -/
def pyRange (stop step : Nat) : List Nat :=
  (List.range ((stop + step - 1) / step)).map (fun k => k * step)

/-- The token windows produced by `chunk_text` before they are joined back
into strings: `words[i:i + chunk_size]` for `i` in
`range(0, len(words), chunk_size - overlap)`. -/
def chunkWindows (text : String) (chunk_size : Nat := 500) (overlap : Nat := 50) :
    List (List String) :=
  let words := pySplit text
  (pyRange words.length (chunk_size - overlap)).map
    (fun i => (words.drop i).take chunk_size)

/-- `chunk_text` from `therefore_document_processor.py`:

    words = text.split()
    return [" ".join(words[i:i + chunk_size])
            for i in range(0, len(words), chunk_size - overlap)]
-/
def chunk_text (text : String) (chunk_size : Nat := 500) (overlap : Nat := 50) :
    List String :=
  (chunkWindows text chunk_size overlap).map (fun w => String.intercalate " " w)

/-- Number of windows: Python's `range(0, n, step)` has `ceil(n / step)`
elements, here written `(n + step - 1) / step`. -/
theorem chunkWindows_length (text : String) (cs ov : Nat) :
    (chunkWindows text cs ov).length =
      ((pySplit text).length + (cs - ov) - 1) / (cs - ov) := by
  simp [chunkWindows, pyRange]

/-- The k-th window is `words[step * k : step * k + cs]`. -/
theorem chunkWindows_getD (text : String) (cs ov k : Nat)
    (h : k < (chunkWindows text cs ov).length) :
    (chunkWindows text cs ov).getD k [] =
      ((pySplit text).drop (k * (cs - ov))).take cs := by
  rw [chunkWindows_length] at h
  simp [chunkWindows, pyRange, List.getD_eq_getElem?_getD, List.getElem?_map,
    List.getElem?_range, h]

/-- Out-of-range lookup yields the default. -/
theorem chunkWindows_getD_of_le (text : String) (cs ov k : Nat)
    (h : (chunkWindows text cs ov).length ≤ k) :
    (chunkWindows text cs ov).getD k [] = [] := by
  simp [List.getD_eq_getElem?_getD, List.getElem?_eq_none h]

/-- Text of 901 whitespace-separated words; its middle chunk window is short,
although it is not the final window. -/
def exText : String := String.mk (List.flatten (List.replicate 901 ['w', ' ']))

/-- C5 (amended): with the default arguments 500/50, `chunk_text` splits its
input into whitespace-delimited tokens and produces `ceil(N / 450)` ordered
windows of at most 500 tokens advancing by 450 tokens, so two consecutive
full-length windows overlap by exactly 50 tokens; `chunk_text ""` is empty.
Every window except possibly the last two is exactly 500 tokens long (the
second-to-last window may hold between 451 and 499 tokens, the last at most
450). -/
theorem chunk_text_spec (text : String) :
    chunk_text "" = [] ∧
    chunk_text text = (chunkWindows text).map (fun w => String.intercalate " " w) ∧
    (chunkWindows text).length = ((pySplit text).length + 449) / 450 ∧
    (∀ k, ((chunkWindows text).getD k []).length ≤ 500) ∧
    (∀ k, k + 3 ≤ (chunkWindows text).length →
      ((chunkWindows text).getD k []).length = 500) ∧
    (∀ k, k + 1 < (chunkWindows text).length →
      ((chunkWindows text).getD k []).length = 500 →
      ((chunkWindows text).getD k []).drop 450 =
        ((chunkWindows text).getD (k + 1) []).take 50) := by
  refine ⟨rfl, rfl, by simpa using chunkWindows_length text 500 50, ?_, ?_, ?_⟩
  · intro k
    rcases lt_or_le k (chunkWindows text 500 50).length with h | h
    · rw [chunkWindows_getD text 500 50 k h]
      simp [List.length_take]
    · rw [chunkWindows_getD_of_le text 500 50 k h]
      simp
  · intro k hk
    have h : k < (chunkWindows text 500 50).length := by omega
    rw [chunkWindows_getD text 500 50 k h]
    rw [chunkWindows_length] at hk
    have h450 : (0 : Nat) < 450 := by norm_num
    have hmul : (k + 3) * 450 ≤ (pySplit text).length + 450 - 1 :=
      (Nat.le_div_iff_mul_le h450).mp hk
    simp only [List.length_take, List.length_drop]
    omega
  · intro k hk _
    have h : k < (chunkWindows text 500 50).length := by omega
    rw [chunkWindows_getD text 500 50 k h, chunkWindows_getD text 500 50 (k + 1) hk]
    rw [List.drop_take, List.drop_drop, List.take_take]
    have : k * (500 - 50) + 450 = (k + 1) * (500 - 50) := by ring
    simp [this]

set_option maxRecDepth 200000 in
/-- C5 counterexample: on 901 words, `chunk_text` with the default 500/50
produces three windows of 500, 451 and 1 tokens; the middle window is not the
final one yet is shorter than 500 tokens, refuting "only the final window may
be shorter". -/
theorem chunk_text_non_final_window_short :
    (chunkWindows exText).map List.length = [500, 451, 1] ∧
    ¬ (∀ k, k + 1 < (chunkWindows exText).length →
        ((chunkWindows exText).getD k []).length = 500) := by
  constructor
  · decide
  · intro h
    have h1 : ((chunkWindows exText).getD 1 []).length = 500 := h 1 (by decide)
    have h2 : ((chunkWindows exText).getD 1 []).length = 451 := by decide
    omega

set_option maxRecDepth 200000 in
/-- Concrete instance of `chunk_text_spec`: on the 901-word text the first
window is full (500 tokens) and its last 50 tokens are the first 50 of the
second window. -/
theorem chunk_text_spec_witness :
    ((chunkWindows exText).getD 0 []).length = 500 ∧
    ((chunkWindows exText).getD 0 []).drop 450 =
      ((chunkWindows exText).getD 1 []).take 50 :=
  ⟨(chunk_text_spec exText).2.2.2.2.1 0 (by decide),
   (chunk_text_spec exText).2.2.2.2.2 0 (by decide)
     ((chunk_text_spec exText).2.2.2.2.1 0 (by decide))⟩

/-! ### Version ledger reconciliation
(`therefore_document_gatherer.get_therefore_documents_for_processing`,
row loop, lines 108-125) -/

/-- The per-tenant ledger: document number to last stored version.  The
payload column does not influence any claim and is omitted. -/
abbrev Ledger : Type := Nat → Option Int

/-- The ledger before any run: the `documents` table starts empty. -/
def emptyLedger : Ledger := fun _ => none

/-- One row of the gatherer loop:

    if result is None or result[0] != version: REPLACE INTO documents ...

Returns the new ledger and whether an upsert was performed. -/
def syncRow (L : Ledger) (row : Nat × Int) : Ledger × Bool :=
  match L row.1 with
  | none => (fun d => if d = row.1 then some row.2 else L d, true)
  | some v =>
    if v = row.2 then (L, false)
    else (fun d => if d = row.1 then some row.2 else L d, true)

/-- The whole row loop of one sync run, counting upserts (`doc_count`). -/
def syncRun (L : Ledger) : List (Nat × Int) → Ledger × Nat
  | [] => (L, 0)
  | row :: rows =>
    let r := syncRow L row
    let rest := syncRun r.1 rows
    (rest.1, (if r.2 then 1 else 0) + rest.2)

/-- The versions reported for document `d`, in arrival order. -/
def observedVersions (d : Nat) (rows : List (Nat × Int)) : List Int :=
  (rows.filter (fun r => decide (r.1 = d))).map (fun r => r.2)

theorem syncRow_fst_apply (L : Ledger) (row : Nat × Int) (d : Nat) :
    (syncRow L row).1 d = if d = row.1 then some row.2 else L d := by
  unfold syncRow
  rcases h : L row.1 with _ | v
  · rfl
  · by_cases hv : v = row.2
    · subst hv
      simp only [if_pos rfl]
      by_cases hd : d = row.1
      · subst hd; simp [h]
      · simp [hd]
    · simp [hv]

theorem observedVersions_cons (d : Nat) (row : Nat × Int) (rows : List (Nat × Int)) :
    observedVersions d (row :: rows) =
      if row.1 = d then row.2 :: observedVersions d rows
      else observedVersions d rows := by
  by_cases h : row.1 = d <;> simp [observedVersions, List.filter, h]

/-- A document never mentioned keeps its ledger entry. -/
theorem syncRun_fst_apply_of_not_observed (rows : List (Nat × Int)) :
    ∀ (L : Ledger) (d : Nat), observedVersions d rows = [] →
      (syncRun L rows).1 d = L d := by
  induction rows with
  | nil => intro L d _; rfl
  | cons row rows ih =>
    intro L d h
    rw [observedVersions_cons] at h
    by_cases hd : row.1 = d
    · rw [if_pos hd] at h
      simp at h
    · rw [if_neg hd] at h
      have hstep : (syncRun L (row :: rows)).1 = (syncRun (syncRow L row).1 rows).1 := rfl
      rw [hstep, ih _ d h, syncRow_fst_apply]
      have hd' : ¬ d = row.1 := fun h' => hd h'.symm
      simp [hd']

/-- After the loop, the stored version is the last version observed. -/
theorem syncRun_fst_apply_getLast (rows : List (Nat × Int)) :
    ∀ (L : Ledger) (d : Nat) (v : Int),
      (observedVersions d rows).getLast? = some v →
      (syncRun L rows).1 d = some v := by
  induction rows with
  | nil => intro L d v h; simp [observedVersions] at h
  | cons row rows ih =>
    intro L d v h
    have hstep : (syncRun L (row :: rows)).1 = (syncRun (syncRow L row).1 rows).1 := rfl
    rw [observedVersions_cons] at h
    by_cases hd : row.1 = d
    · rw [if_pos hd] at h
      cases hobs : observedVersions d rows with
      | nil =>
        rw [hobs] at h
        rw [List.getLast?_singleton] at h
        rw [hstep, syncRun_fst_apply_of_not_observed rows _ d hobs, syncRow_fst_apply]
        rw [if_pos hd.symm, h]
      | cons a l =>
        rw [hobs, List.getLast?_cons_cons, ← hobs] at h
        rw [hstep]
        exact ih _ d v h
    · rw [if_neg hd] at h
      rw [hstep]
      exact ih _ d v h

/-- In a chain of non-decreasing values the last bounds them all. -/
theorem chain'_le_getLast (l : List Int) :
    List.Chain' (· ≤ ·) l → ∀ v, l.getLast? = some v → ∀ w ∈ l, w ≤ v := by
  induction l with
  | nil => intro _ v h; simp at h
  | cons a l ih =>
    intro hc v hlast w hw
    cases l with
    | nil =>
      simp [List.getLast?] at hlast
      simp at hw
      omega
    | cons b t =>
      have hab : a ≤ b := (List.chain'_cons.mp hc).1
      have hct : List.Chain' (· ≤ ·) (b :: t) := (List.chain'_cons.mp hc).2
      have hlast' : (b :: t).getLast? = some v := by
        simpa [List.getLast?] using hlast
      rcases List.mem_cons.mp hw with rfl | hw'
      · have hb : b ≤ v := ih hct v hlast' b (List.mem_cons_self b t)
        omega
      · exact ih hct v hlast' w hw'

/-- C1: starting from an empty ledger, after any sequence of sync runs (their
rows concatenated in order), the stored version of a document is the last
version observed for it, which under the monotonicity hypothesis is the
maximum version ever observed; and runs compose by concatenation. -/
theorem version_monotonicity (rows : List (Nat × Int)) (d : Nat) (v : Int)
    (hmono : List.Chain' (· ≤ ·) (observedVersions d rows))
    (hlast : (observedVersions d rows).getLast? = some v) :
    (syncRun emptyLedger rows).1 d = some v ∧
    (∀ w ∈ observedVersions d rows, w ≤ v) ∧
    (∀ (rows₁ rows₂ : List (Nat × Int)) (L : Ledger),
      (syncRun L (rows₁ ++ rows₂)).1 = (syncRun (syncRun L rows₁).1 rows₂).1) := by
  refine ⟨syncRun_fst_apply_getLast rows emptyLedger d v hlast,
    chain'_le_getLast _ hmono v hlast, ?_⟩
  intro rows₁ rows₂ L
  induction rows₁ generalizing L with
  | nil => rfl
  | cons r rs ih => exact ih (syncRow L r).1

/-- Concrete instance of `version_monotonicity`: document 1 is observed at
versions 1 then 3 (with another document interleaved) and the ledger ends at
version 3. -/
theorem version_monotonicity_witness :
    (syncRun emptyLedger [(1, 1), (2, 7), (1, 3)]).1 1 = some 3 :=
  (version_monotonicity [(1, 1), (2, 7), (1, 3)] 1 3
    (by rw [show observedVersions 1 [(1, 1), (2, 7), (1, 3)] = [1, 3] from rfl]
        exact List.chain'_pair.mpr (by norm_num))
    (by rfl)).1

theorem syncRow_skip (M : Ledger) (row : Nat × Int) (h : M row.1 = some row.2) :
    syncRow M row = (M, false) := by
  unfold syncRow
  rw [h]
  simp

/-- When every row is already stored at its incoming version, the whole run
changes nothing and performs zero upserts. -/
theorem syncRun_all_stored (rows : List (Nat × Int)) :
    ∀ M : Ledger, (∀ r ∈ rows, M r.1 = some r.2) → syncRun M rows = (M, 0) := by
  induction rows with
  | nil => intro M _; rfl
  | cons row rows ih =>
    intro M hM
    have h1 : syncRow M row = (M, false) :=
      syncRow_skip M row (hM row (List.mem_cons_self row rows))
    have h2 : syncRun M rows = (M, 0) :=
      ih M (fun r hr => hM r (List.mem_cons.mpr (Or.inr hr)))
    simp [syncRun, h1, h2]

/-- After one run over rows in which each document id carries one version,
every row's version is the stored one. -/
theorem syncRun_stores_rows (rows : List (Nat × Int)) (L : Ledger)
    (hfun : ∀ r ∈ rows, ∀ r' ∈ rows, r.1 = r'.1 → r.2 = r'.2) :
    ∀ r ∈ rows, (syncRun L rows).1 r.1 = some r.2 := by
  intro r hr
  have hmem : r.2 ∈ observedVersions r.1 rows := by
    simp only [observedVersions, List.mem_map, List.mem_filter]
    exact ⟨r, ⟨hr, by simp⟩, rfl⟩
  rcases hg : (observedVersions r.1 rows).getLast? with _ | w
  · exact absurd (List.getLast?_eq_none_iff.mp hg) (List.ne_nil_of_mem hmem)
  · have hw : w ∈ observedVersions r.1 rows := List.mem_of_mem_getLast? hg
    simp only [observedVersions, List.mem_map, List.mem_filter,
      decide_eq_true_eq] at hw
    obtain ⟨r', ⟨hr', hid⟩, hv⟩ := hw
    have : r'.2 = r.2 := hfun r' hr' r hr hid
    rw [syncRun_fst_apply_getLast rows L r.1 w hg, ← hv, this]

/-- C3 counterexample: with the same docId reported twice at different
versions, re-running the sync on unchanged data performs two upserts, not
zero: the stored version keeps flapping between the two reported values. -/
theorem sync_second_run_upserts :
    (syncRun (syncRun emptyLedger [(1, 0), (1, 1)]).1 [(1, 0), (1, 1)]).2 = 2 ∧
    (syncRun (syncRun emptyLedger [(1, 0), (1, 1)]).1 [(1, 0), (1, 1)]).2 ≠ 0 := by
  constructor
  · decide
  · decide

/-- C3 (amended): a row leads to an upsert iff the stored version for its
docId is absent or differs from the incoming version; consequently a second
run over unchanged upstream rows performs zero upserts, provided no document
id occurs in the rows with two different versions. -/
theorem sync_idempotent (L : Ledger) (rows : List (Nat × Int))
    (hfun : ∀ r ∈ rows, ∀ r' ∈ rows, r.1 = r'.1 → r.2 = r'.2) :
    (∀ (M : Ledger) (row : Nat × Int),
      (syncRow M row).2 = true ↔ M row.1 ≠ some row.2) ∧
    (syncRun (syncRun L rows).1 rows).2 = 0 := by
  constructor
  · intro M row
    unfold syncRow
    rcases h : M row.1 with _ | v
    · simp
    · by_cases hv : v = row.2
      · subst hv; simp
      · simp [hv]
  · have hall := syncRun_all_stored rows (syncRun L rows).1 (syncRun_stores_rows rows L hfun)
    rw [hall]

/-- Concrete instance of `sync_idempotent`: two distinct documents, second
run upserts nothing. -/
theorem sync_idempotent_witness :
    (syncRun (syncRun emptyLedger [(1, 5), (2, 7)]).1 [(1, 5), (2, 7)]).2 = 0 :=
  (sync_idempotent emptyLedger [(1, 5), (2, 7)] (by decide)).2

/-! ### Decimal string representation
Chunk ids are Python f-strings `f"{doc_id}_chunk{idx}"`; reasoning about
their collisions needs that the decimal rendering of a natural number is
injective and contains no underscore. -/

/-- Big-endian decimal digit characters of `n`, empty for `0`. -/
def decDigitsRec : Nat → List Char
  | 0 => []
  | n + 1 => decDigitsRec ((n + 1) / 10) ++ [Nat.digitChar ((n + 1) % 10)]
decreasing_by exact Nat.div_lt_self (Nat.succ_pos n) (by norm_num)

/-- Big-endian decimal digit characters of `n`, with `0` rendered "0". -/
def decDigits (n : Nat) : List Char :=
  if n = 0 then ['0'] else decDigitsRec n

theorem digitChar_ne_underscore : ∀ a, a < 10 → Nat.digitChar a ≠ '_' := by decide

theorem digitChar_inj :
    ∀ a, a < 10 → ∀ b, b < 10 → Nat.digitChar a = Nat.digitChar b → a = b := by decide

theorem decDigitsRec_ne_nil (n : Nat) (h : n ≠ 0) : decDigitsRec n ≠ [] := by
  cases n with
  | zero => exact absurd rfl h
  | succ m => simp [decDigitsRec]

theorem decDigitsRec_no_underscore (n : Nat) : ∀ c ∈ decDigitsRec n, c ≠ '_' := by
  induction n using Nat.strong_induction_on with
  | _ n ih =>
    cases n with
    | zero => intro c hc; simp [decDigitsRec] at hc
    | succ m =>
      intro c hc
      rw [show decDigitsRec (m + 1) =
          decDigitsRec ((m + 1) / 10) ++ [Nat.digitChar ((m + 1) % 10)] from by
        simp [decDigitsRec]] at hc
      rcases List.mem_append.mp hc with h1 | h2
      · exact ih ((m + 1) / 10) (Nat.div_lt_self (Nat.succ_pos m) (by norm_num)) c h1
      · have hc2 : c = Nat.digitChar ((m + 1) % 10) := by simpa using h2
        rw [hc2]
        exact digitChar_ne_underscore _ (Nat.mod_lt _ (by norm_num))

theorem decDigitsRec_inj (m : Nat) : ∀ n, decDigitsRec m = decDigitsRec n → m = n := by
  induction m using Nat.strong_induction_on with
  | _ m ih =>
    intro n h
    match m, n with
    | 0, 0 => rfl
    | 0, b + 1 =>
      rw [show decDigitsRec 0 = [] from by simp [decDigitsRec]] at h
      exact absurd h.symm (decDigitsRec_ne_nil (b + 1) (Nat.succ_ne_zero b))
    | a + 1, 0 =>
      rw [show decDigitsRec 0 = [] from by simp [decDigitsRec]] at h
      exact absurd h (decDigitsRec_ne_nil (a + 1) (Nat.succ_ne_zero a))
    | a + 1, b + 1 =>
      rw [show decDigitsRec (a + 1) =
          decDigitsRec ((a + 1) / 10) ++ [Nat.digitChar ((a + 1) % 10)] from by
        simp [decDigitsRec]] at h
      rw [show decDigitsRec (b + 1) =
          decDigitsRec ((b + 1) / 10) ++ [Nat.digitChar ((b + 1) % 10)] from by
        simp [decDigitsRec]] at h
      have hrev := congrArg List.reverse h
      simp only [List.reverse_append, List.reverse_cons, List.reverse_nil,
        List.nil_append, List.cons_append, List.singleton_append,
        List.cons.injEq] at hrev
      obtain ⟨hdig, htail⟩ := hrev
      have hdiv : (a + 1) / 10 = (b + 1) / 10 := by
        apply ih ((a + 1) / 10) (Nat.div_lt_self (Nat.succ_pos a) (by norm_num))
        have := congrArg List.reverse htail
        simpa using this
      have hmod : (a + 1) % 10 = (b + 1) % 10 :=
        digitChar_inj _ (Nat.mod_lt _ (by norm_num)) _ (Nat.mod_lt _ (by norm_num)) hdig
      omega

theorem decDigitsRec_zero : decDigitsRec 0 = [] := by simp [decDigitsRec]

theorem decDigitsRec_eq_nil (k : Nat) (h : decDigitsRec k = []) : k = 0 := by
  by_contra hk
  exact decDigitsRec_ne_nil k hk h

theorem decDigits_of_ne_zero (n : Nat) (h : n ≠ 0) :
    decDigits n = decDigitsRec (n / 10) ++ [Nat.digitChar (n % 10)] := by
  unfold decDigits
  rw [if_neg h]
  cases n with
  | zero => exact absurd rfl h
  | succ m => simp [decDigitsRec]

theorem decDigits_small (n : Nat) (h : n / 10 = 0) :
    decDigits n = [Nat.digitChar (n % 10)] := by
  by_cases hn : n = 0
  · subst hn; decide
  · rw [decDigits_of_ne_zero n hn, h, decDigitsRec_zero, List.nil_append]

theorem decDigits_inj (m n : Nat) (h : decDigits m = decDigits n) : m = n := by
  by_cases hm : m = 0 <;> by_cases hn : n = 0
  · omega
  · exfalso
    rw [decDigits_of_ne_zero n hn] at h
    unfold decDigits at h
    rw [if_pos hm] at h
    have hrev := congrArg List.reverse h
    simp only [List.reverse_append, List.reverse_cons, List.reverse_nil,
      List.nil_append, List.singleton_append, List.cons.injEq] at hrev
    obtain ⟨hdig, htail⟩ := hrev
    have h10 : n % 10 = 0 := by
      have := digitChar_inj 0 (by norm_num) (n % 10) (Nat.mod_lt _ (by norm_num))
      exact (this (by rw [← hdig]; decide)).symm
    have hdiv : n / 10 = 0 := by
      apply decDigitsRec_eq_nil
      have := congrArg List.reverse htail
      simpa using this
    omega
  · exfalso
    rw [decDigits_of_ne_zero m hm] at h
    unfold decDigits at h
    rw [if_pos hn] at h
    have hrev := congrArg List.reverse h
    simp only [List.reverse_append, List.reverse_cons, List.reverse_nil,
      List.nil_append, List.singleton_append, List.cons.injEq] at hrev
    obtain ⟨hdig, htail⟩ := hrev
    have h10 : m % 10 = 0 := by
      have := digitChar_inj (m % 10) (Nat.mod_lt _ (by norm_num)) 0 (by norm_num)
      exact this (by rw [hdig]; decide)
    have hdiv : m / 10 = 0 := by
      apply decDigitsRec_eq_nil
      have := congrArg List.reverse htail
      simpa using this
    omega
  · rw [decDigits_of_ne_zero m hm, decDigits_of_ne_zero n hn] at h
    have hrev := congrArg List.reverse h
    simp only [List.reverse_append, List.reverse_cons, List.reverse_nil,
      List.nil_append, List.singleton_append, List.cons.injEq] at hrev
    obtain ⟨hdig, htail⟩ := hrev
    have hmod : m % 10 = n % 10 :=
      digitChar_inj _ (Nat.mod_lt _ (by norm_num)) _ (Nat.mod_lt _ (by norm_num)) hdig
    have hdivrec : decDigitsRec (m / 10) = decDigitsRec (n / 10) := by
      have := congrArg List.reverse htail
      simpa using this
    have hdiv : m / 10 = n / 10 := decDigitsRec_inj _ _ hdivrec
    omega

/-- With sufficient fuel, core Lean's `Nat.toDigitsCore` renders exactly the
decimal digits. -/
theorem toDigitsCore_eq_decDigits (fuel : Nat) :
    ∀ (n : Nat) (ds : List Char), n < 10 ^ fuel →
      Nat.toDigitsCore 10 (fuel + 1) n ds = decDigits n ++ ds := by
  induction fuel with
  | zero =>
    intro n ds h
    have hn : n = 0 := by simpa using h
    subst hn
    simp [Nat.toDigitsCore, decDigits]
    decide
  | succ fuel ih =>
    intro n ds h
    rw [show Nat.toDigitsCore 10 (fuel + 1 + 1) n ds =
        (if n / 10 = 0 then Nat.digitChar (n % 10) :: ds
         else Nat.toDigitsCore 10 (fuel + 1) (n / 10) (Nat.digitChar (n % 10) :: ds))
        from by simp [Nat.toDigitsCore]]
    by_cases hdiv : n / 10 = 0
    · rw [if_pos hdiv, decDigits_small n hdiv]
      rfl
    · rw [if_neg hdiv]
      have hlt : n / 10 < 10 ^ fuel := by
        rw [Nat.div_lt_iff_lt_mul (by norm_num : (0:Nat) < 10)]
        calc n < 10 ^ (fuel + 1) := h
        _ = 10 ^ fuel * 10 := by ring
      rw [ih (n / 10) (Nat.digitChar (n % 10) :: ds) hlt]
      have hn : n ≠ 0 := fun h0 => hdiv (by simp [h0])
      rw [decDigits_of_ne_zero n hn,
        show decDigits (n / 10) = decDigitsRec (n / 10) from by
          unfold decDigits; rw [if_neg hdiv]]
      simp

/-- core Lean's decimal rendering of a natural number is `decDigits`. -/
theorem repr_eq_decDigits (n : Nat) : Nat.repr n = (decDigits n).asString := by
  unfold Nat.repr Nat.toDigits
  rw [toDigitsCore_eq_decDigits n n [] (Nat.lt_pow_self (by norm_num) n)]
  rw [List.append_nil]

/-- Decimal rendering is injective. -/
theorem repr_inj (m n : Nat) (h : Nat.repr m = Nat.repr n) : m = n := by
  rw [repr_eq_decDigits, repr_eq_decDigits] at h
  exact decDigits_inj m n (List.asString_inj.mp h)

/-- Decimal renderings contain no underscore. -/
theorem repr_no_underscore (n : Nat) : ∀ c ∈ (Nat.repr n).data, c ≠ '_' := by
  rw [repr_eq_decDigits]
  intro c hc
  have hc' : c ∈ decDigits n := hc
  unfold decDigits at hc'
  by_cases hn : n = 0
  · rw [if_pos hn] at hc'
    simp at hc'
    rw [hc']
    decide
  · rw [if_neg hn] at hc'
    exact decDigitsRec_no_underscore n c hc'

/-- Splitting a character list at an underscore is unambiguous when both
candidate prefixes are underscore-free. -/
theorem underscore_split (a₁ : List Char) :
    ∀ (a₂ s₁ s₂ : List Char), (∀ c ∈ a₁, c ≠ '_') → (∀ c ∈ a₂, c ≠ '_') →
      a₁ ++ '_' :: s₁ = a₂ ++ '_' :: s₂ → a₁ = a₂ ∧ s₁ = s₂ := by
  induction a₁ with
  | nil =>
    intro a₂ s₁ s₂ _ h₂ heq
    cases a₂ with
    | nil => simpa using heq
    | cons c t =>
      exfalso
      have : '_' = c := by simpa using congrArg (fun l => l.headD ' ') heq
      exact h₂ c (List.mem_cons_self c t) this.symm
  | cons c t ih =>
    intro a₂ s₁ s₂ h₁ h₂ heq
    cases a₂ with
    | nil =>
      exfalso
      have : c = '_' := by simpa using congrArg (fun l => l.headD ' ') heq
      exact h₁ c (List.mem_cons_self c t) this
    | cons c₂ t₂ =>
      simp only [List.cons_append, List.cons.injEq] at heq
      obtain ⟨hc, htl⟩ := heq
      have := ih t₂ s₁ s₂ (fun x hx => h₁ x (List.mem_cons.mpr (Or.inr hx)))
        (fun x hx => h₂ x (List.mem_cons.mpr (Or.inr hx))) htl
      exact ⟨by rw [hc, this.1], this.2⟩

/-! ### Vector index reconciliation
(`therefore_document_processor.process_document` and the document loop of
`process_tenant`) -/

/-- One record of the per-tenant Chroma collection: id, chunk text, and the
metadata `{"version": version, "parent_doc": doc_id}`.  The embedding vector
accompanies every record but influences no claim and is omitted. -/
structure Chunk where
  id : String
  text : String
  version : Int
  parent : String
deriving DecidableEq

/-- Outcome of converting one stream to a saved file: the result of the
extension test `file_path.lower().endswith('.pdf')` and the text
`utils.extract_text_from_pdf` yields for it. -/
structure TFile where
  is_pdf : Bool
  text : String
deriving DecidableEq

/-- Chunk id: the f-string `f"{doc_id}_chunk{idx}"`. -/
def chunkId (doc_id : String) (idx : Nat) : String :=
  doc_id ++ "_chunk" ++ Nat.repr idx

/-- The chunk records added for one saved file; the ordinal restarts at 0 for
each file (`for idx, (chunk, emb) in enumerate(zip(text_chunks, ...))`). -/
def chunksForFile (doc_id : String) (version : Int) (text : String) : List Chunk :=
  (chunk_text text).enum.map
    (fun p => { id := chunkId doc_id p.1, text := p.2, version := version, parent := doc_id })

/-- The `for file_path in saved_files` loop: skip non-PDF files, skip files
whose text chunks to nothing, otherwise add one record per chunk.  Also
counts the `collection.add` calls performed. -/
def addFiles (index : List Chunk) (doc_id : String) (version : Int) (inserted : Nat) :
    List TFile → List Chunk × Nat
  | [] => (index, inserted)
  | f :: fs =>
    if ¬ f.is_pdf then addFiles index doc_id version inserted fs
    else if (chunk_text f.text).isEmpty then addFiles index doc_id version inserted fs
    else
      addFiles (index ++ chunksForFile doc_id version f.text) doc_id version
        (inserted + (chunksForFile doc_id version f.text).length) fs

/-- The records the file loop appends, without the threaded state. -/
def addedChunks (doc_id : String) (version : Int) : List TFile → List Chunk
  | [] => []
  | f :: fs =>
    if ¬ f.is_pdf then addedChunks doc_id version fs
    else if (chunk_text f.text).isEmpty then addedChunks doc_id version fs
    else chunksForFile doc_id version f.text ++ addedChunks doc_id version fs

/-- The part of `process_document` after the version check: the
`convert_and_save_document` outcome (`none` models its caught-exception path
returning `None`), the `not isinstance(saved_files, list) or not saved_files`
guard, then the file loop.  Results: state, deleted count, inserted count. -/
def processSaved (index : List Chunk) (doc_id : String) (version : Int) (deleted : Nat) :
    Option (List TFile) → List Chunk × Nat × Nat
  | none => (index, deleted, 0)
  | some fs =>
    if fs.isEmpty then (index, deleted, 0)
    else
      let r := addFiles index doc_id version 0 fs
      (r.1, deleted, r.2)

/-- `process_document`: look up existing chunks
(`collection.get(where={"parent_doc": doc_id})`, in insertion order), skip if
the first one's stored version equals the target, delete them all otherwise,
then convert, extract, chunk, embed and add. -/
def process_document (index : List Chunk) (doc_no : Nat) (version : Int)
    (saved_files : Option (List TFile)) : List Chunk × Nat × Nat :=
  match index.filter (fun c => decide (c.parent = Nat.repr doc_no)) with
  | [] => processSaved index (Nat.repr doc_no) version 0 saved_files
  | e :: es =>
    if e.version = version then (index, 0, 0)
    else
      processSaved
        (index.filter (fun c => decide (c.id ∉ (e :: es).map Chunk.id)))
        (Nat.repr doc_no) version (e :: es).length saved_files

/-- The document loop of `process_tenant` over the ledger rows
(`SELECT DocNo, Version FROM documents`); each document's conversion outcome
is supplied by the environment `env`. -/
def runIndexPhase (index : List Chunk) (env : Nat → Option (List TFile)) :
    List (Nat × Int) → List Chunk × Nat × Nat
  | [] => (index, 0, 0)
  | (d, v) :: rest =>
    let r := process_document index d v (env d)
    let rr := runIndexPhase r.1 env rest
    (rr.1, r.2.1 + rr.2.1, r.2.2 + rr.2.2)

/-- Every pair of chunks sharing a parent carries the same version. -/
def Uniform (index : List Chunk) : Prop :=
  ∀ c ∈ index, ∀ c' ∈ index, c.parent = c'.parent → c.version = c'.version

/-- Ids of the generated shape name their parent document. -/
def IdsName (index : List Chunk) : Prop :=
  ∀ c ∈ index, ∀ d k : Nat, c.id = chunkId (Nat.repr d) k → c.parent = Nat.repr d

/-- Chunks agreeing on the id agree on the parent. -/
def IdParent (index : List Chunk) : Prop :=
  ∀ c ∈ index, ∀ c' ∈ index, c.id = c'.id → c.parent = c'.parent

/-- Conversion and extraction produced no text for any PDF rendition. -/
def NoText : Option (List TFile) → Prop
  | none => True
  | some fs => ∀ f ∈ fs, f.is_pdf = true → chunk_text f.text = []

theorem chunkId_inj_right (doc_id : String) (i j : Nat)
    (h : chunkId doc_id i = chunkId doc_id j) : i = j := by
  have hd := congrArg String.data h
  simp only [chunkId, String.data_append, List.append_assoc] at hd
  have h1 := List.append_cancel_left hd
  have h2 := List.append_cancel_left h1
  exact repr_inj i j (String.ext h2)

theorem chunkId_inj_num (m i n j : Nat)
    (h : chunkId (Nat.repr m) i = chunkId (Nat.repr n) j) : m = n ∧ i = j := by
  have hd := congrArg String.data h
  simp only [chunkId, String.data_append, List.append_assoc, List.cons_append] at hd
  have hsplit := underscore_split _ _ _ _ (repr_no_underscore m) (repr_no_underscore n) hd
  refine ⟨repr_inj m n (String.ext hsplit.1), ?_⟩
  have h2 : (Nat.repr i).data = (Nat.repr j).data := by
    have := hsplit.2
    simp only [List.nil_append, List.cons.injEq] at this
    tauto
  exact repr_inj i j (String.ext h2)

theorem addFiles_eq (doc_id : String) (version : Int) (fs : List TFile) :
    ∀ (index : List Chunk) (inserted : Nat),
      addFiles index doc_id version inserted fs =
        (index ++ addedChunks doc_id version fs,
         inserted + (addedChunks doc_id version fs).length) := by
  induction fs with
  | nil => intro index inserted; simp [addFiles, addedChunks]
  | cons f fs ih =>
    intro index inserted
    by_cases hp : f.is_pdf
    · by_cases he : (chunk_text f.text).isEmpty
      · simp [addFiles, addedChunks, hp, he, ih]
      · simp only [addFiles, addedChunks, hp, he, ih, not_true_eq_false, if_false,
          Bool.false_eq_true, List.append_assoc, List.length_append, Prod.mk.injEq]
        exact ⟨trivial, by omega⟩
    · simp [addFiles, addedChunks, hp, ih]

/-- What the file loop appends: nothing if conversion failed or yielded no
usable files, the per-file chunk records otherwise. -/
def savedAdded (doc_id : String) (version : Int) : Option (List TFile) → List Chunk
  | none => []
  | some fs => if fs.isEmpty then [] else addedChunks doc_id version fs

theorem processSaved_eq (index : List Chunk) (doc_id : String) (version : Int)
    (deleted : Nat) (saved_files : Option (List TFile)) :
    processSaved index doc_id version deleted saved_files =
      (index ++ savedAdded doc_id version saved_files, deleted,
        (savedAdded doc_id version saved_files).length) := by
  match saved_files with
  | none => simp [processSaved, savedAdded]
  | some fs =>
    by_cases he : fs.isEmpty
    · simp [processSaved, savedAdded, he]
    · simp [processSaved, savedAdded, he, addFiles_eq]

theorem mem_chunksForFile (doc_id : String) (version : Int) (text : String) :
    ∀ c ∈ chunksForFile doc_id version text,
      c.parent = doc_id ∧ c.version = version ∧ ∃ k, c.id = chunkId doc_id k := by
  intro c hc
  simp only [chunksForFile, List.mem_map] at hc
  obtain ⟨p, _, rfl⟩ := hc
  exact ⟨rfl, rfl, p.1, rfl⟩

theorem mem_addedChunks (doc_id : String) (version : Int) (fs : List TFile) :
    ∀ c ∈ addedChunks doc_id version fs,
      c.parent = doc_id ∧ c.version = version ∧ ∃ k, c.id = chunkId doc_id k := by
  induction fs with
  | nil => intro c hc; simp [addedChunks] at hc
  | cons f fs ih =>
    intro c hc
    simp only [addedChunks] at hc
    split at hc
    · exact ih c hc
    · split at hc
      · exact ih c hc
      · rcases List.mem_append.mp hc with h | h
        · exact mem_chunksForFile doc_id version f.text c h
        · exact ih c h

theorem mem_savedAdded (doc_id : String) (version : Int)
    (saved_files : Option (List TFile)) :
    ∀ c ∈ savedAdded doc_id version saved_files,
      c.parent = doc_id ∧ c.version = version ∧ ∃ k, c.id = chunkId doc_id k := by
  intro c hc
  match saved_files with
  | none => simp [savedAdded] at hc
  | some fs =>
    by_cases he : fs.isEmpty
    · simp [savedAdded, he] at hc
    · simp only [savedAdded, he, if_false, Bool.false_eq_true] at hc
      exact mem_addedChunks doc_id version fs c hc

theorem addedChunks_eq_nil (doc_id : String) (version : Int) (fs : List TFile)
    (h : ∀ f ∈ fs, f.is_pdf = true → chunk_text f.text = []) :
    addedChunks doc_id version fs = [] := by
  induction fs with
  | nil => simp [addedChunks]
  | cons f fs ih =>
    have hrest := ih (fun g hg => h g (List.mem_cons.mpr (Or.inr hg)))
    by_cases hp : f.is_pdf
    · have hcf : chunk_text f.text = [] := h f (List.mem_cons_self f fs) hp
      simp [addedChunks, hp, hcf, hrest]
    · simp [addedChunks, hp, hrest]

theorem savedAdded_eq_nil (doc_id : String) (version : Int)
    (saved_files : Option (List TFile)) (h : NoText saved_files) :
    savedAdded doc_id version saved_files = [] := by
  match saved_files with
  | none => rfl
  | some fs =>
    by_cases he : fs.isEmpty
    · simp [savedAdded, he]
    · simp only [savedAdded, he, if_false, Bool.false_eq_true]
      exact addedChunks_eq_nil doc_id version fs h

/-- Anything in the state after `process_document` was already there or was
freshly produced for that document at the target version. -/
theorem mem_process_document (index : List Chunk) (doc_no : Nat) (version : Int)
    (saved_files : Option (List TFile)) :
    ∀ c ∈ (process_document index doc_no version saved_files).1,
      c ∈ index ∨ (c.parent = Nat.repr doc_no ∧ c.version = version ∧
        ∃ k, c.id = chunkId (Nat.repr doc_no) k) := by
  intro c hc
  unfold process_document at hc
  split at hc
  · rw [processSaved_eq] at hc
    rcases List.mem_append.mp hc with h | h
    · exact Or.inl h
    · exact Or.inr (mem_savedAdded _ _ _ c h)
  · split at hc
    · exact Or.inl hc
    · rw [processSaved_eq] at hc
      rcases List.mem_append.mp hc with h | h
      · exact Or.inl (List.mem_of_mem_filter h)
      · exact Or.inr (mem_savedAdded _ _ _ c h)

/-- After processing a document, every chunk of that document carries the
target version (whether kept because already current, or freshly added). -/
theorem process_document_parent_version (index : List Chunk) (doc_no : Nat)
    (version : Int) (saved_files : Option (List TFile)) (huni : Uniform index) :
    ∀ c ∈ (process_document index doc_no version saved_files).1,
      c.parent = Nat.repr doc_no → c.version = version := by
  intro c hc hp
  unfold process_document at hc
  split at hc
  · rename_i hfil
    rw [processSaved_eq] at hc
    rcases List.mem_append.mp hc with h | h
    · exfalso
      have hmem : c ∈ index.filter (fun c => decide (c.parent = Nat.repr doc_no)) :=
        List.mem_filter.mpr ⟨h, by simp [hp]⟩
      rw [hfil] at hmem
      simp at hmem
    · exact (mem_savedAdded _ _ _ c h).2.1
  · rename_i e es hfil
    split at hc
    · rename_i hv
      have he : e ∈ index.filter (fun c => decide (c.parent = Nat.repr doc_no)) := by
        rw [hfil]; exact List.mem_cons_self e es
      have hemem := List.mem_filter.mp he
      have hep : e.parent = Nat.repr doc_no := by simpa using hemem.2
      have := huni c hc e hemem.1 (by rw [hp, hep])
      rw [this, hv]
    · rw [processSaved_eq] at hc
      rcases List.mem_append.mp hc with h | h
      · exfalso
        have hcf := List.mem_filter.mp h
        have hcex : c ∈ index.filter (fun c => decide (c.parent = Nat.repr doc_no)) :=
          List.mem_filter.mpr ⟨hcf.1, by simp [hp]⟩
        rw [hfil] at hcex
        have hidmem : c.id ∈ (e :: es).map Chunk.id := List.mem_map.mpr ⟨c, hcex, rfl⟩
        have hnot := hcf.2
        simp only [decide_eq_true_eq] at hnot
        exact hnot hidmem
      · exact (mem_savedAdded _ _ _ c h).2.1

/-- `process_document` preserves per-document version uniformity. -/
theorem process_document_uniform (index : List Chunk) (doc_no : Nat) (version : Int)
    (saved_files : Option (List TFile)) (huni : Uniform index) :
    Uniform (process_document index doc_no version saved_files).1 := by
  intro c hc c' hc' hpar
  rcases mem_process_document index doc_no version saved_files c hc with h | h <;>
    rcases mem_process_document index doc_no version saved_files c' hc' with h' | h'
  · exact huni c h c' h' hpar
  · have hcv := process_document_parent_version index doc_no version saved_files huni
      c hc (hpar.trans h'.1)
    rw [hcv, h'.2.1]
  · have hcv := process_document_parent_version index doc_no version saved_files huni
      c' hc' (hpar.symm.trans h.1)
    rw [h.2.1, hcv]
  · rw [h.2.1, h'.2.1]

/-- Chunks of other documents in the result were already present. -/
theorem process_document_other_parent (index : List Chunk) (doc_no : Nat)
    (version : Int) (saved_files : Option (List TFile)) (P : String)
    (hP : P ≠ Nat.repr doc_no) :
    ∀ c ∈ (process_document index doc_no version saved_files).1,
      c.parent = P → c ∈ index := by
  intro c hc hp
  rcases mem_process_document index doc_no version saved_files c hc with h | h
  · exact h
  · exact absurd (hp.symm.trans h.1) hP

/-- Chunks of other documents are never deleted, because the deleted ids all
belong to chunks of the processed document (`IdParent`). -/
theorem process_document_keeps (index : List Chunk) (doc_no : Nat) (version : Int)
    (saved_files : Option (List TFile)) (hidp : IdParent index)
    (c : Chunk) (hc : c ∈ index) (hp : c.parent ≠ Nat.repr doc_no) :
    c ∈ (process_document index doc_no version saved_files).1 := by
  unfold process_document
  split
  · rw [processSaved_eq]
    exact List.mem_append.mpr (Or.inl hc)
  · rename_i e es hfil
    split
    · exact hc
    · rw [processSaved_eq]
      refine List.mem_append.mpr (Or.inl (List.mem_filter.mpr ⟨hc, ?_⟩))
      simp only [decide_eq_true_eq]
      intro hmem
      obtain ⟨e', he', heq⟩ := List.mem_map.mp hmem
      have he'f : e' ∈ index.filter (fun c => decide (c.parent = Nat.repr doc_no)) := by
        rw [hfil]; exact he'
      have h2 := List.mem_filter.mp he'f
      have he'p : e'.parent = Nat.repr doc_no := by simpa using h2.2
      exact hp ((hidp c hc e' h2.1 heq.symm).trans he'p)

theorem process_document_idsName (index : List Chunk) (doc_no : Nat) (version : Int)
    (saved_files : Option (List TFile)) (hids : IdsName index) :
    IdsName (process_document index doc_no version saved_files).1 := by
  intro c hc d k hck
  rcases mem_process_document index doc_no version saved_files c hc with h | h
  · exact hids c h d k hck
  · obtain ⟨hpar, _, k', hid⟩ := h
    have hinj := chunkId_inj_num doc_no k' d k (hid.symm.trans hck)
    rw [hpar, hinj.1]

theorem process_document_idParent (index : List Chunk) (doc_no : Nat) (version : Int)
    (saved_files : Option (List TFile)) (hids : IdsName index) (hidp : IdParent index) :
    IdParent (process_document index doc_no version saved_files).1 := by
  intro c hc c' hc' hid
  rcases mem_process_document index doc_no version saved_files c hc with h | h <;>
    rcases mem_process_document index doc_no version saved_files c' hc' with h' | h'
  · exact hidp c h c' h' hid
  · obtain ⟨hp', _, k', hid'⟩ := h'
    rw [hp']
    exact hids c h doc_no k' (hid.trans hid')
  · obtain ⟨hp, _, k, hidc⟩ := h
    rw [hp]
    exact (hids c' h' doc_no k (hid.symm.trans hidc)).symm
  · rw [h.1, h'.1]

/-- A document with no chunks stays chunkless when other documents are
processed, and also when it is itself processed but extraction yields no
text. -/
theorem process_document_absent (index : List Chunk) (doc_no : Nat) (version : Int)
    (saved_files : Option (List TFile)) (P : String)
    (habs : ∀ c ∈ index, c.parent ≠ P)
    (hcase : P ≠ Nat.repr doc_no ∨ NoText saved_files) :
    ∀ c ∈ (process_document index doc_no version saved_files).1, c.parent ≠ P := by
  intro c hc
  unfold process_document at hc
  split at hc
  · rw [processSaved_eq] at hc
    rcases List.mem_append.mp hc with hA | hB
    · exact habs c hA
    · rcases hcase with hne | htext
      · rw [(mem_savedAdded _ _ _ c hB).1]
        exact fun hP => hne hP.symm
      · rw [savedAdded_eq_nil _ _ _ htext] at hB
        simp at hB
  · split at hc
    · exact habs c hc
    · rw [processSaved_eq] at hc
      rcases List.mem_append.mp hc with hA | hB
      · exact habs c (List.mem_of_mem_filter hA)
      · rcases hcase with hne | htext
        · rw [(mem_savedAdded _ _ _ c hB).1]
          exact fun hP => hne hP.symm
        · rw [savedAdded_eq_nil _ _ _ htext] at hB
          simp at hB

/-- Processing other documents preserves "all chunks of parent `P` have
version `w`". -/
theorem runIndexPhase_preserve_version (env : Nat → Option (List TFile))
    (P : String) (w : Int) :
    ∀ (ledger : List (Nat × Int)) (index : List Chunk),
      (∀ p ∈ ledger, Nat.repr p.1 ≠ P) →
      (∀ c ∈ index, c.parent = P → c.version = w) →
      ∀ c ∈ (runIndexPhase index env ledger).1, c.parent = P → c.version = w := by
  intro ledger
  induction ledger with
  | nil => intro index _ h; exact h
  | cons q rest ih =>
    intro index hne h
    obtain ⟨d, v⟩ := q
    have hPd : P ≠ Nat.repr d := fun hh => hne (d, v) (List.mem_cons_self _ _) hh.symm
    apply ih
    · intro q2 hq2
      exact hne q2 (List.mem_cons.mpr (Or.inr hq2))
    · intro c hc hp
      exact h c (process_document_other_parent index d v (env d) P hPd c hc hp) hp

/-- Processing other documents preserves chunklessness of parent `P`. -/
theorem runIndexPhase_preserve_absent (env : Nat → Option (List TFile)) (P : String) :
    ∀ (ledger : List (Nat × Int)) (index : List Chunk),
      (∀ p ∈ ledger, Nat.repr p.1 ≠ P) →
      (∀ c ∈ index, c.parent ≠ P) →
      ∀ c ∈ (runIndexPhase index env ledger).1, c.parent ≠ P := by
  intro ledger
  induction ledger with
  | nil => intro index _ h; exact h
  | cons q rest ih =>
    intro index hne h
    obtain ⟨d, v⟩ := q
    have hPd : P ≠ Nat.repr d := fun hh => hne (d, v) (List.mem_cons_self _ _) hh.symm
    apply ih
    · intro q2 hq2
      exact hne q2 (List.mem_cons.mpr (Or.inr hq2))
    · exact process_document_absent index d v (env d) P h (Or.inl hPd)

/-- The index run keeps per-document version uniformity. -/
theorem runIndexPhase_uniform (env : Nat → Option (List TFile)) :
    ∀ (ledger : List (Nat × Int)) (index : List Chunk), Uniform index →
      Uniform (runIndexPhase index env ledger).1 := by
  intro ledger
  induction ledger with
  | nil => intro index h; exact h
  | cons q rest ih =>
    intro index h
    obtain ⟨d, v⟩ := q
    exact ih _ (process_document_uniform index d v (env d) h)

/-- After a full index run, every chunk of a ledger document carries that
document's ledger version. -/
theorem runIndexPhase_version (env : Nat → Option (List TFile)) :
    ∀ (ledger : List (Nat × Int)) (index : List Chunk),
      (ledger.map (fun p => Nat.repr p.1)).Nodup → Uniform index →
      ∀ p ∈ ledger, ∀ c ∈ (runIndexPhase index env ledger).1,
        c.parent = Nat.repr p.1 → c.version = p.2 := by
  intro ledger
  induction ledger with
  | nil => intro index _ _ p hp; simp at hp
  | cons q rest ih =>
    intro index hnodup huni p hp
    obtain ⟨d, v⟩ := q
    rw [List.map_cons, List.nodup_cons] at hnodup
    rcases List.mem_cons.mp hp with rfl | hrest
    · have hJ : ∀ c ∈ (process_document index d v (env d)).1,
          c.parent = Nat.repr d → c.version = v :=
        process_document_parent_version index d v (env d) huni
      have hne : ∀ q2 ∈ rest, Nat.repr q2.1 ≠ Nat.repr d := by
        intro q2 hq2 heq
        exact hnodup.1 (List.mem_map.mpr ⟨q2, hq2, heq⟩)
      exact runIndexPhase_preserve_version env (Nat.repr d) v rest
        (process_document index d v (env d)).1 hne hJ
    · exact ih ((process_document index d v (env d)).1) hnodup.2
        (process_document_uniform index d v (env d) huni) p hrest

/-- Processing another document preserves "no chunk of parent `P` is at
version `w`". -/
theorem process_document_preserve_ne (index : List Chunk) (doc_no : Nat)
    (version : Int) (saved_files : Option (List TFile)) (P : String) (w : Int)
    (hP : P ≠ Nat.repr doc_no)
    (h : ∀ c ∈ index, c.parent = P → c.version ≠ w) :
    ∀ c ∈ (process_document index doc_no version saved_files).1,
      c.parent = P → c.version ≠ w := by
  intro c hc hp
  rcases mem_process_document index doc_no version saved_files c hc with hold | hnew
  · exact h c hold hp
  · exact absurd (hp.symm.trans hnew.1) hP

/-- Processing a document none of whose existing chunks carries the target
version — a document with a prior version's chunks, or with none at all —
leaves it with zero chunks when extraction yields no text: the version check
cannot skip, any stale chunks are deleted before extraction is attempted, and
nothing is added. -/
theorem process_document_absent_of_stale (index : List Chunk) (d : Nat) (v : Int)
    (saved_files : Option (List TFile))
    (hstale : ∀ c ∈ index, c.parent = Nat.repr d → c.version ≠ v)
    (htext : NoText saved_files) :
    ∀ c ∈ (process_document index d v saved_files).1, c.parent ≠ Nat.repr d := by
  intro c hc
  unfold process_document at hc
  split at hc
  · rename_i hfil
    rw [processSaved_eq, savedAdded_eq_nil _ _ _ htext, List.append_nil] at hc
    intro hp
    have hmem : c ∈ index.filter (fun c => decide (c.parent = Nat.repr d)) :=
      List.mem_filter.mpr ⟨hc, by simp [hp]⟩
    rw [hfil] at hmem
    simp at hmem
  · rename_i e es hfil
    split at hc
    · rename_i hv
      exfalso
      have he : e ∈ index.filter (fun c => decide (c.parent = Nat.repr d)) := by
        rw [hfil]; exact List.mem_cons_self e es
      have h2 := List.mem_filter.mp he
      exact hstale e h2.1 (by simpa using h2.2) hv
    · rw [processSaved_eq, savedAdded_eq_nil _ _ _ htext, List.append_nil] at hc
      intro hp
      have hcf := List.mem_filter.mp hc
      have hcex : c ∈ index.filter (fun c => decide (c.parent = Nat.repr d)) :=
        List.mem_filter.mpr ⟨hcf.1, by simp [hp]⟩
      rw [hfil] at hcex
      have hidmem : c.id ∈ (e :: es).map Chunk.id := List.mem_map.mpr ⟨c, hcex, rfl⟩
      have hnot := hcf.2
      simp only [decide_eq_true_eq] at hnot
      exact hnot hidmem

/-- A ledger document none of whose prior chunks is at its ledger version —
covering both a chunkless document and one holding a prior version's chunks,
which its step deletes before attempting extraction — ends the run with zero
chunks when its extraction yields no text. -/
theorem runIndexPhase_absent_noText (env : Nat → Option (List TFile)) (p : Nat × Int) :
    ∀ (ledger : List (Nat × Int)) (index : List Chunk),
      (ledger.map (fun q => Nat.repr q.1)).Nodup →
      p ∈ ledger →
      (∀ c ∈ index, c.parent = Nat.repr p.1 → c.version ≠ p.2) →
      NoText (env p.1) →
      ∀ c ∈ (runIndexPhase index env ledger).1, c.parent ≠ Nat.repr p.1 := by
  intro ledger
  induction ledger with
  | nil => intro index _ hp; simp at hp
  | cons q rest ih =>
    intro index hnodup hp hstale htext
    obtain ⟨d, v⟩ := q
    rw [List.map_cons, List.nodup_cons] at hnodup
    rcases List.mem_cons.mp hp with rfl | hrest
    · have hJ : ∀ c ∈ (process_document index d v (env d)).1,
          c.parent ≠ Nat.repr d :=
        process_document_absent_of_stale index d v (env d) hstale htext
      have hne : ∀ q2 ∈ rest, Nat.repr q2.1 ≠ Nat.repr d := by
        intro q2 hq2 heq
        exact hnodup.1 (List.mem_map.mpr ⟨q2, hq2, heq⟩)
      exact runIndexPhase_preserve_absent env (Nat.repr d) rest
        (process_document index d v (env d)).1 hne hJ
    · have hd : Nat.repr p.1 ≠ Nat.repr d := by
        intro heq
        exact hnodup.1 (List.mem_map.mpr ⟨p, hrest, heq⟩)
      have hstale' : ∀ c ∈ (process_document index d v (env d)).1,
          c.parent = Nat.repr p.1 → c.version ≠ p.2 :=
        process_document_preserve_ne index d v (env d) (Nat.repr p.1) p.2 hd hstale
      exact ih ((process_document index d v (env d)).1) hnodup.2 hrest hstale' htext

/-- C2: at the end of any index run over a ledger with distinct document
numbers, starting from a per-document version-uniform collection, every chunk
record sharing a parent document id carries that document's current ledger
version; and a document whose extraction yields no text is left with zero
chunks — both when it had no chunks and when it held a prior version's chunks
(stored version differing from the ledger's), which are deleted before
extraction is attempted. -/
theorem index_version_consistency (index : List Chunk) (ledger : List (Nat × Int))
    (env : Nat → Option (List TFile))
    (hnodup : (ledger.map (fun p => Nat.repr p.1)).Nodup)
    (huni : Uniform index) :
    (∀ p ∈ ledger, ∀ c ∈ (runIndexPhase index env ledger).1,
      c.parent = Nat.repr p.1 → c.version = p.2) ∧
    (∀ p ∈ ledger, (∀ c ∈ index, c.parent = Nat.repr p.1 → c.version ≠ p.2) →
      NoText (env p.1) →
      ∀ c ∈ (runIndexPhase index env ledger).1, c.parent ≠ Nat.repr p.1) := by
  constructor
  · exact runIndexPhase_version env ledger index hnodup huni
  · intro p hp hstale htext
    exact runIndexPhase_absent_noText env p ledger index hnodup hp hstale htext

/-- Environment for concrete index runs: every document converts to one PDF
rendition whose extracted text is "hello world". -/
def exEnv : Nat → Option (List TFile) := fun _ => some [{ is_pdf := true, text := "hello world" }]

/-- A collection already holding one chunk of document 1 at version 1. -/
def exIndex : List Chunk :=
  [{ id := "1_chunk0", text := "old", version := 1, parent := "1" }]

/-- Environment in which document 1 converts to a PDF with no extractable
text and every other document to a PDF reading "hello world". -/
def exEnv2 : Nat → Option (List TFile) :=
  fun d =>
    if d = 1 then some [{ is_pdf := true, text := "" }]
    else some [{ is_pdf := true, text := "hello world" }]

/-- Concrete instance of `index_version_consistency`: document 1 held a
version-1 chunk, is re-indexed at version 2 with no extractable text, and
ends with zero chunks (its stale chunk deleted); document 2's fresh chunk
carries its ledger version. -/
theorem index_version_consistency_witness :
    ({ id := "2_chunk0", text := "hello world", version := 1, parent := "2" } : Chunk).version = 1 ∧
    ({ id := "2_chunk0", text := "hello world", version := 1, parent := "2" } : Chunk).parent ≠
      Nat.repr 1 :=
  ⟨(index_version_consistency exIndex [(1, 2), (2, 1)] exEnv2 (by decide)
      (by
        intro c hc c' hc' _
        simp only [exIndex, List.mem_singleton] at hc hc'
        subst hc
        subst hc'
        rfl)).1
    (2, 1) (by decide)
    { id := "2_chunk0", text := "hello world", version := 1, parent := "2" }
    (by decide) (by decide),
   (index_version_consistency exIndex [(1, 2), (2, 1)] exEnv2 (by decide)
      (by
        intro c hc c' hc' _
        simp only [exIndex, List.mem_singleton] at hc hc'
        subst hc
        subst hc'
        rfl)).2
    (1, 2) (by decide)
    (by
      intro c hc _
      simp only [exIndex, List.mem_singleton] at hc
      subst hc
      decide)
    (by
      intro f hf _
      rw [List.mem_singleton] at hf
      subst hf
      rfl)
    { id := "2_chunk0", text := "hello world", version := 1, parent := "2" }
    (by decide)⟩

/-- The skip branch: existing chunks whose stored version (read from the
first returned record) equals the target are left untouched, with zero
deletions and zero insertions. -/
theorem process_document_skip (index : List Chunk) (doc_no : Nat) (version : Int)
    (saved_files : Option (List TFile)) (e : Chunk) (es : List Chunk)
    (hfil : index.filter (fun c => decide (c.parent = Nat.repr doc_no)) = e :: es)
    (hv : e.version = version) :
    process_document index doc_no version saved_files = (index, 0, 0) := by
  unfold process_document
  simp only [hfil]
  rw [if_pos hv]

theorem process_document_no_existing (index : List Chunk) (doc_no : Nat)
    (version : Int) (saved_files : Option (List TFile))
    (hfil : index.filter (fun c => decide (c.parent = Nat.repr doc_no)) = []) :
    process_document index doc_no version saved_files =
      (index ++ savedAdded (Nat.repr doc_no) version saved_files, 0,
        (savedAdded (Nat.repr doc_no) version saved_files).length) := by
  unfold process_document
  simp only [hfil]
  exact processSaved_eq index (Nat.repr doc_no) version 0 saved_files

/-- A processed document ends its step either with some chunk of its own in
the collection or with nothing to add for it. -/
theorem process_document_post (index : List Chunk) (d : Nat) (v : Int)
    (saved_files : Option (List TFile)) :
    (∃ c ∈ (process_document index d v saved_files).1, c.parent = Nat.repr d) ∨
    savedAdded (Nat.repr d) v saved_files = [] := by
  cases hadd : savedAdded (Nat.repr d) v saved_files with
  | nil => exact Or.inr rfl
  | cons a l =>
    left
    have hmem : a ∈ savedAdded (Nat.repr d) v saved_files := by
      rw [hadd]; exact List.mem_cons_self a l
    have hap : a.parent = Nat.repr d := (mem_savedAdded _ _ _ a hmem).1
    unfold process_document
    split
    · rw [processSaved_eq]
      exact ⟨a, List.mem_append.mpr (Or.inr hmem), hap⟩
    · rename_i e es hfil
      split
      · have he : e ∈ index.filter (fun c => decide (c.parent = Nat.repr d)) := by
          rw [hfil]; exact List.mem_cons_self e es
        have h2 := List.mem_filter.mp he
        exact ⟨e, h2.1, by simpa using h2.2⟩
      · rw [processSaved_eq]
        exact ⟨a, List.mem_append.mpr (Or.inr hmem), hap⟩

/-- A document that already has a chunk keeps at least one through the
processing of the remaining documents. -/
theorem runIndexPhase_preserve_exists (env : Nat → Option (List TFile)) (P : String) :
    ∀ (ledger : List (Nat × Int)) (index : List Chunk),
      IdsName index → IdParent index →
      (∀ p ∈ ledger, Nat.repr p.1 ≠ P) →
      (∃ c ∈ index, c.parent = P) →
      ∃ c ∈ (runIndexPhase index env ledger).1, c.parent = P := by
  intro ledger
  induction ledger with
  | nil => intro index _ _ _ h; exact h
  | cons q rest ih =>
    intro index hids hidp hne hex
    obtain ⟨d, v⟩ := q
    have hPd : P ≠ Nat.repr d := fun hh => hne (d, v) (List.mem_cons_self _ _) hh.symm
    obtain ⟨c, hc, hp⟩ := hex
    refine ih ((process_document index d v (env d)).1)
      (process_document_idsName index d v (env d) hids)
      (process_document_idParent index d v (env d) hids hidp)
      (fun q2 hq2 => hne q2 (List.mem_cons.mpr (Or.inr hq2)))
      ⟨c, process_document_keeps index d v (env d) hidp c hc (by rw [hp]; exact hPd.symm ∘ Eq.symm), hp⟩
  -- the keeps argument: c.parent = P ≠ Nat.repr d

/-- After run one, every ledger document either has chunks of its own in the
collection or its conversion outcome adds nothing. -/
theorem runIndexPhase_post (env : Nat → Option (List TFile)) :
    ∀ (ledger : List (Nat × Int)) (index : List Chunk),
      (ledger.map (fun p => Nat.repr p.1)).Nodup →
      IdsName index → IdParent index →
      ∀ p ∈ ledger,
        (∃ c ∈ (runIndexPhase index env ledger).1, c.parent = Nat.repr p.1) ∨
        savedAdded (Nat.repr p.1) p.2 (env p.1) = [] := by
  intro ledger
  induction ledger with
  | nil => intro index _ _ _ p hp; simp at hp
  | cons q rest ih =>
    intro index hnodup hids hidp p hp
    obtain ⟨d, v⟩ := q
    rw [List.map_cons, List.nodup_cons] at hnodup
    have hidsJ := process_document_idsName index d v (env d) hids
    have hidpJ := process_document_idParent index d v (env d) hids hidp
    rcases List.mem_cons.mp hp with rfl | hrest
    · rcases process_document_post index d v (env d) with hex | hnil
      · left
        have hne : ∀ q2 ∈ rest, Nat.repr q2.1 ≠ Nat.repr d := by
          intro q2 hq2 heq
          exact hnodup.1 (List.mem_map.mpr ⟨q2, hq2, heq⟩)
        exact runIndexPhase_preserve_exists env (Nat.repr d) rest
          (process_document index d v (env d)).1 hidsJ hidpJ hne hex
      · right; exact hnil
    · exact ih ((process_document index d v (env d)).1) hnodup.2 hidsJ hidpJ p hrest

/-- A step over a state already consistent for its document is the identity
with zero deletions and insertions. -/
theorem process_document_noop (X : List Chunk) (d : Nat) (v : Int)
    (saved_files : Option (List TFile))
    (hA : ∀ c ∈ X, c.parent = Nat.repr d → c.version = v)
    (hB : (∃ c ∈ X, c.parent = Nat.repr d) ∨
      savedAdded (Nat.repr d) v saved_files = []) :
    process_document X d v saved_files = (X, 0, 0) := by
  cases hfil : X.filter (fun c => decide (c.parent = Nat.repr d)) with
  | nil =>
    have hadd : savedAdded (Nat.repr d) v saved_files = [] := by
      rcases hB with ⟨c, hc, hp⟩ | h
      · exfalso
        have hmem : c ∈ X.filter (fun c => decide (c.parent = Nat.repr d)) :=
          List.mem_filter.mpr ⟨hc, by simp [hp]⟩
        rw [hfil] at hmem
        simp at hmem
      · exact h
    rw [process_document_no_existing X d v saved_files hfil, hadd]
    simp
  | cons e es =>
    have he : e ∈ X.filter (fun c => decide (c.parent = Nat.repr d)) := by
      rw [hfil]; exact List.mem_cons_self e es
    have h2 := List.mem_filter.mp he
    have hv : e.version = v := hA e h2.1 (by simpa using h2.2)
    exact process_document_skip X d v saved_files e es hfil hv

/-- A run over a state already consistent for every ledger document performs
zero deletions and zero insertions and leaves the state unchanged. -/
theorem runIndexPhase_noop (env : Nat → Option (List TFile)) :
    ∀ (ledger : List (Nat × Int)) (X : List Chunk),
      (∀ p ∈ ledger, ∀ c ∈ X, c.parent = Nat.repr p.1 → c.version = p.2) →
      (∀ p ∈ ledger, (∃ c ∈ X, c.parent = Nat.repr p.1) ∨
        savedAdded (Nat.repr p.1) p.2 (env p.1) = []) →
      runIndexPhase X env ledger = (X, 0, 0) := by
  intro ledger
  induction ledger with
  | nil => intro X _ _; rfl
  | cons q rest ih =>
    intro X hA hB
    obtain ⟨d, v⟩ := q
    have hstep : process_document X d v (env d) = (X, 0, 0) :=
      process_document_noop X d v (env d)
        (hA (d, v) (List.mem_cons_self _ _)) (hB (d, v) (List.mem_cons_self _ _))
    have hrest : runIndexPhase X env rest = (X, 0, 0) :=
      ih X (fun p hp => hA p (List.mem_cons.mpr (Or.inr hp)))
        (fun p hp => hB p (List.mem_cons.mpr (Or.inr hp)))
    simp [runIndexPhase, hstep, hrest]

/-- C4: a document whose existing chunks already carry the target version is
skipped entirely (no deletions, no insertions); consequently a second index
run with an unchanged ledger and unchanged conversion outcomes deletes
nothing, inserts nothing and leaves the collection unchanged. -/
theorem index_phase_idempotent (index : List Chunk) (ledger : List (Nat × Int))
    (env : Nat → Option (List TFile))
    (hnodup : (ledger.map (fun p => Nat.repr p.1)).Nodup)
    (huni : Uniform index) (hids : IdsName index) (hidp : IdParent index) :
    (∀ (X : List Chunk) (d : Nat) (v : Int) (fs : Option (List TFile))
        (e : Chunk) (es : List Chunk),
      X.filter (fun c => decide (c.parent = Nat.repr d)) = e :: es →
      e.version = v →
      process_document X d v fs = (X, 0, 0)) ∧
    runIndexPhase (runIndexPhase index env ledger).1 env ledger =
      ((runIndexPhase index env ledger).1, 0, 0) := by
  constructor
  · intro X d v fs e es hfil hv
    exact process_document_skip X d v fs e es hfil hv
  · apply runIndexPhase_noop
    · exact runIndexPhase_version env ledger index hnodup huni
    · exact runIndexPhase_post env ledger index hnodup hids hidp

/-- Concrete instance of `index_phase_idempotent`: re-running the index phase
for document 1 over the collection it just produced changes nothing. -/
theorem index_phase_idempotent_witness :
    runIndexPhase (runIndexPhase [] exEnv [(1, 1)]).1 exEnv [(1, 1)] =
      ((runIndexPhase [] exEnv [(1, 1)]).1, 0, 0) :=
  (index_phase_idempotent [] [(1, 1)] exEnv (by decide)
    (fun c hc => absurd hc (List.not_mem_nil c))
    (fun c hc => absurd hc (List.not_mem_nil c))
    (fun c hc => absurd hc (List.not_mem_nil c))).2

/-! ### Chunk id uniqueness -/

/-- How many saved files contribute chunk records: PDF files whose extracted
text chunks to a non-empty list. -/
def contributingFiles (fs : List TFile) : Nat :=
  fs.countP (fun f => f.is_pdf && !(chunk_text f.text).isEmpty)

/-- Within one file the generated ids are pairwise distinct: the ordinal is
injective into the id string. -/
theorem chunksForFile_ids_nodup (doc_id : String) (version : Int) (text : String) :
    ((chunksForFile doc_id version text).map Chunk.id).Nodup := by
  have hmap : (chunksForFile doc_id version text).map Chunk.id =
      ((chunk_text text).enum.map Prod.fst).map (chunkId doc_id) := by
    simp only [chunksForFile]
    rw [List.map_map, List.map_map]
    congr 1
  rw [hmap, List.enum_map_fst]
  exact List.Nodup.map (fun a b h => chunkId_inj_right doc_id a b h) (List.nodup_range _)

theorem addedChunks_eq_nil_of_no_contrib (doc_id : String) (version : Int)
    (fs : List TFile) (h : contributingFiles fs = 0) :
    addedChunks doc_id version fs = [] := by
  induction fs with
  | nil => simp [addedChunks]
  | cons f fs ih =>
    rw [contributingFiles, List.countP_cons] at h
    by_cases hp : f.is_pdf
    · by_cases he : (chunk_text f.text).isEmpty
      · have hpf : (f.is_pdf && !(chunk_text f.text).isEmpty) = false := by
          simp [hp, he]
        rw [hpf] at h
        simp only [addedChunks, hp, not_true_eq_false, if_false, he, if_true]
        exact ih (by rw [contributingFiles]; omega)
      · exfalso
        have hcontrib : (f.is_pdf && !(chunk_text f.text).isEmpty) = true := by
          simp [hp, he]
        rw [hcontrib] at h
        simp at h
    · have hpf : (f.is_pdf && !(chunk_text f.text).isEmpty) = false := by
        simp [hp]
      rw [hpf] at h
      simp only [addedChunks, hp, not_false_eq_true, if_true]
      exact ih (by rw [contributingFiles]; omega)

/-- With at most one contributing file, all ids added for the document are
pairwise distinct. -/
theorem addedChunks_ids_nodup (doc_id : String) (version : Int) (fs : List TFile)
    (h : contributingFiles fs ≤ 1) :
    ((addedChunks doc_id version fs).map Chunk.id).Nodup := by
  induction fs with
  | nil => simp [addedChunks]
  | cons f fs ih =>
    rw [contributingFiles, List.countP_cons] at h
    by_cases hp : f.is_pdf
    · by_cases he : (chunk_text f.text).isEmpty
      · have hpf : (f.is_pdf && !(chunk_text f.text).isEmpty) = false := by
          simp [hp, he]
        rw [hpf] at h
        simp only [addedChunks, hp, not_true_eq_false, if_false, he, if_true]
        exact ih (by rw [contributingFiles]; omega)
      · have hcontrib : (f.is_pdf && !(chunk_text f.text).isEmpty) = true := by
          simp [hp, he]
        rw [hcontrib, if_pos rfl] at h
        have h0 : contributingFiles fs = 0 := by rw [contributingFiles]; omega
        simp only [addedChunks, hp, not_true_eq_false, if_false, he]
        rw [addedChunks_eq_nil_of_no_contrib doc_id version fs h0]
        simpa using chunksForFile_ids_nodup doc_id version f.text
    · have hpf : (f.is_pdf && !(chunk_text f.text).isEmpty) = false := by
        simp [hp]
      rw [hpf] at h
      simp only [addedChunks, hp, not_false_eq_true, if_true]
      exact ih (by rw [contributingFiles]; omega)

/-- C7: chunk ids are generated as the f-string `{docId}_chunk{ordinal}` and
are unique per document and position: the ids generated for one file are
pairwise distinct, and when at most one saved file contributes chunks (the
single-rendition case) no two add calls for the document share an id.  The
ordinal restarts at 0 for each saved file, so a conversion yielding two
contributing PDF renditions reuses ids, as the concrete two-file computation
in the last two conjuncts shows. -/
theorem chunk_ids_unique (doc_id : String) (version : Int) (text : String)
    (fs : List TFile) (hone : contributingFiles fs ≤ 1) :
    ((chunksForFile doc_id version text).map Chunk.id).Nodup ∧
    ((addedChunks doc_id version fs).map Chunk.id).Nodup ∧
    ((addedChunks "9" 1 [{ is_pdf := true, text := "a" },
        { is_pdf := true, text := "b" }]).map Chunk.id) = ["9_chunk0", "9_chunk0"] ∧
    ¬ ((addedChunks "9" 1 [{ is_pdf := true, text := "a" },
        { is_pdf := true, text := "b" }]).map Chunk.id).Nodup :=
  ⟨chunksForFile_ids_nodup doc_id version text,
    addedChunks_ids_nodup doc_id version fs hone, by decide, by decide⟩

/-- Concrete instance of `chunk_ids_unique`: one PDF rendition, distinct
ids. -/
theorem chunk_ids_unique_witness :
    ((addedChunks "7" 1 [{ is_pdf := true, text := "hello world" }]).map Chunk.id).Nodup :=
  (chunk_ids_unique "7" 1 "x" [{ is_pdf := true, text := "hello world" }] (by decide)).2.1

/-! ### Paginated query
(`therefore_functions.query_all_category_documents`, lines 57-97) -/

/-- One response of the query protocol: a block of result rows and the
continuation flag (`response.get("HasRemainingRows", False)`; an absent key
reads as `false`). -/
structure QueryResponse (α : Type) where
  resultRows : List α
  hasRemainingRows : Bool
deriving DecidableEq

/-- Outcome of the final `ReleaseSingleQuery` exchange: the server answered
with some HTTP status (the code reads and discards the response without
inspecting the status), or the request itself raised a transport error. -/
inductive ReleaseResult where
  | response (status : Nat)
  | transportFailure
deriving DecidableEq

/-- The `while has_remaining` loop: while the flag is set, issue one
continuation request (always carrying the query id of the initial response),
append the returned rows in arrival order, update the flag.  Consumes the
environment's next responses in order; `none` models the loop demanding a
response the environment cannot produce.  Returns the accumulated rows and
the log of query ids sent in continuation requests. -/
def collectRows {α : Type} (queryId : Nat) (acc : List α) :
    Bool → List (QueryResponse α) → Option (List α × List Nat)
  | false, _ => some (acc, [])
  | true, [] => none
  | true, r :: rest =>
    match collectRows queryId (acc ++ r.resultRows) r.hasRemainingRows rest with
    | none => none
    | some (rows, reqs) => some (rows, queryId :: reqs)

/-- `query_all_category_documents` after the initial request: accumulate all
row blocks, then release the query handle.  A transport failure during the
release propagates out of the function (there is no try/except around it), so
the caller receives no rows; a release response of any status is read and
discarded, and the collected rows are returned. -/
def query_all_category_documents {α : Type} (queryId : Nat)
    (first : QueryResponse α) (nextResponses : List (QueryResponse α))
    (release : ReleaseResult) : Option (List α × List Nat) :=
  match collectRows queryId first.resultRows first.hasRemainingRows nextResponses with
  | none => none
  | some (rows, reqs) =>
    match release with
    | ReleaseResult.response _ => some (rows, reqs)
    | ReleaseResult.transportFailure => none

/-- The loop accumulates every remaining page in order, one continuation
request per page, when every page but the last says more rows remain. -/
theorem collectRows_pages {α : Type} (queryId : Nat) :
    ∀ (rest : List (QueryResponse α)) (acc : List α),
      rest ≠ [] →
      (∀ (i : Nat) (hi : i < rest.length),
        (rest.get ⟨i, hi⟩).hasRemainingRows = decide (i + 1 < rest.length)) →
      collectRows queryId acc true rest =
        some (acc ++ (rest.map (fun r => r.resultRows)).flatten,
          List.replicate rest.length queryId) := by
  intro rest
  induction rest with
  | nil => intro acc h _; exact absurd rfl h
  | cons r rest ih =>
    intro acc _ hflags
    cases hrest : rest with
    | nil =>
      have hr : r.hasRemainingRows = false := by
        have := hflags 0 (by simp)
        simpa [hrest] using this
      subst hrest
      simp [collectRows, hr]
    | cons r2 rest2 =>
      have hr : r.hasRemainingRows = true := by
        have := hflags 0 (by simp)
        simpa [hrest] using this
      have hne : rest ≠ [] := by rw [hrest]; simp
      have hflags' : ∀ (i : Nat) (hi : i < rest.length),
          (rest.get ⟨i, hi⟩).hasRemainingRows = decide (i + 1 < rest.length) := by
        intro i hi
        have := hflags (i + 1) (by simp; omega)
        simpa using this
      rw [← hrest]
      simp only [collectRows, hr]
      rw [ih (acc ++ r.resultRows) hne hflags']
      simp [List.append_assoc, List.replicate_succ]

/-- C6: when every page except the last carries `HasRemainingRows = true` and
the last carries `false`, the query returns exactly the concatenation of all
pages' rows in arrival order, issuing one continuation request per remaining
page, each with the query handle of the initial response. -/
theorem pagination_completeness {α : Type} (queryId : Nat) (s : Nat)
    (pages : List (QueryResponse α)) (hne : pages ≠ [])
    (hflags : ∀ (i : Nat) (hi : i < pages.length),
      (pages.get ⟨i, hi⟩).hasRemainingRows = decide (i + 1 < pages.length)) :
    query_all_category_documents queryId (pages.head hne) pages.tail
        (ReleaseResult.response s) =
      some ((pages.map (fun r => r.resultRows)).flatten,
        List.replicate (pages.length - 1) queryId) := by
  cases pages with
  | nil => exact absurd rfl hne
  | cons p rest =>
    simp only [List.head_cons, List.tail_cons]
    cases hrest : rest with
    | nil =>
      have hp : p.hasRemainingRows = false := by
        have := hflags 0 (by simp)
        simpa [hrest] using this
      subst hrest
      simp [query_all_category_documents, collectRows, hp]
    | cons r2 rest2 =>
      have hp : p.hasRemainingRows = true := by
        have := hflags 0 (by simp)
        simpa [hrest] using this
      rw [← hrest]
      have hne2 : rest ≠ [] := by rw [hrest]; simp
      have hflags' : ∀ (i : Nat) (hi : i < rest.length),
          (rest.get ⟨i, hi⟩).hasRemainingRows = decide (i + 1 < rest.length) := by
        intro i hi
        have := hflags (i + 1) (by simp; omega)
        simpa using this
      unfold query_all_category_documents
      rw [hp, collectRows_pages queryId rest p.resultRows hne2 hflags']
      simp [List.replicate_succ]

/-- Three mock pages of 500, 500 and 120 rows with continuation flags
true/true/false. -/
def exPages : List (QueryResponse Nat) :=
  [{ resultRows := List.range 500, hasRemainingRows := true },
   { resultRows := (List.range 500).map (fun n => n + 500), hasRemainingRows := true },
   { resultRows := (List.range 120).map (fun n => n + 1000), hasRemainingRows := false }]

set_option maxRecDepth 200000 in
/-- Concrete instance of `pagination_completeness`: pages of 500/500/120 rows
yield exactly 1120 rows in order, with two continuation requests carrying the
initial query handle. -/
theorem pagination_completeness_witness :
    (query_all_category_documents 7 (exPages.head (by decide)) exPages.tail
        (ReleaseResult.response 200) =
      some ((exPages.map (fun r => r.resultRows)).flatten,
        List.replicate (exPages.length - 1) 7)) ∧
    ((exPages.map (fun r => r.resultRows)).flatten).length = 1120 ∧
    List.replicate (exPages.length - 1) 7 = [7, 7] :=
  ⟨pagination_completeness 7 200 exPages (by decide) (by decide), by decide, by decide⟩

/-- C8 counterexample: when the release request itself fails at the transport
level, the exception propagates (the release is not wrapped in try/except)
and the collected rows are not returned to the caller. -/
theorem release_transport_failure_fatal :
    query_all_category_documents 1
        ({ resultRows := [10, 20], hasRemainingRows := false } : QueryResponse Nat) []
        ReleaseResult.transportFailure = none ∧
    query_all_category_documents 1
        ({ resultRows := [10, 20], hasRemainingRows := false } : QueryResponse Nat) []
        ReleaseResult.transportFailure ≠ some ([10, 20], []) :=
  ⟨rfl, by decide⟩

/-- C8 (amended): the release exchange is status-blind and unlogged: after a
successful row collection, a release response of any HTTP status (success or
failure) is read and discarded and the full collected row sequence is still
returned; a transport-level failure of the release request, however,
propagates and the caller receives no rows. -/
theorem release_best_effort {α : Type} (queryId : Nat)
    (first : QueryResponse α) (nextResponses : List (QueryResponse α))
    (rows : List α) (reqs : List Nat) (s : Nat)
    (hcollect : collectRows queryId first.resultRows first.hasRemainingRows
      nextResponses = some (rows, reqs)) :
    query_all_category_documents queryId first nextResponses
        (ReleaseResult.response s) = some (rows, reqs) ∧
    query_all_category_documents queryId first nextResponses
        ReleaseResult.transportFailure = none := by
  unfold query_all_category_documents
  rw [hcollect]
  exact ⟨rfl, rfl⟩

/-- Concrete instance of `release_best_effort`: a release answered with
status 500 still returns the collected rows. -/
theorem release_best_effort_witness :
    query_all_category_documents 1
        ({ resultRows := [10, 20], hasRemainingRows := false } : QueryResponse Nat) []
        (ReleaseResult.response 500) = some ([10, 20], []) :=
  (release_best_effort 1
    ({ resultRows := [10, 20], hasRemainingRows := false } : QueryResponse Nat) []
    [10, 20] [] 500 (by decide)).1

/-! ### Category taxonomy
(`therefore_functions.get_all_categories` and `_get_items_of_type`) -/

/-- JSON values as Python's `json.loads` produces them; objects keep field
order, since Python dicts preserve insertion order and the traversal iterates
it. -/
inductive Json where
  | null
  | bool (b : Bool)
  | num (n : Int)
  | str (s : String)
  | arr (items : List Json)
  | obj (fields : List (String × Json))

/-- `node.get(key)`: the value of the first field with that key (Python dict
keys are unique). -/
def jsonGet (fields : List (String × Json)) (key : String) : Option Json :=
  match fields.find? (fun f => f.1 == key) with
  | none => none
  | some f => some f.2

/-- The record appended for a matching node:
`{'ItemNo': node.get('ItemNo'), 'Name': node.get('Name')}` — either lookup
may be absent. -/
structure CategoryItem where
  itemNo : Option Json
  name : Option Json

/-- `node.get('ItemType') == type`: true exactly when the field holds the
number `ty`. -/
def itemTypeMatches (fields : List (String × Json)) (ty : Int) : Bool :=
  match jsonGet fields "ItemType" with
  | some (Json.num m) => m == ty
  | _ => false

mutual
/-- `_get_items_of_type(node, results, type)`: on a dict, append the record
when the type tag matches, then recurse into every value that is a list; on a
list, recurse into its elements; anything else contributes nothing. -/
def getItemsOfType (ty : Int) : Json → List CategoryItem
  | Json.obj fields =>
    (if itemTypeMatches fields ty
     then [{ itemNo := jsonGet fields "ItemNo", name := jsonGet fields "Name" }]
     else []) ++ getItemsFields ty fields
  | Json.arr items => getItemsArr ty items
  | _ => []

/-- The `isinstance(node, list)` branch of the traversal. -/
def getItemsArr (ty : Int) : List Json → List CategoryItem
  | [] => []
  | j :: js => getItemsOfType ty j ++ getItemsArr ty js

/-- The `for key in node: if isinstance(node[key], list)` loop: only values
that are lists are recursed into. -/
def getItemsFields (ty : Int) : List (String × Json) → List CategoryItem
  | [] => []
  | (_, Json.arr items) :: rest => getItemsArr ty items ++ getItemsFields ty rest
  | _ :: rest => getItemsFields ty rest
end

/-- An HTTP response as `get_all_categories` sees it: the status (which the
code never inspects) and the parsed body, `none` when `json.loads` raises on
a malformed body. -/
structure HttpResponse where
  status : Nat
  body : Option Json

/-- `get_all_categories`: parse the body (raising on malformed JSON), then
traverse `response_json.get('TreeItems', [])` collecting nodes of type 2.  A
top-level value that is not a dict makes `.get` raise (`none`); the HTTP
status is never checked. -/
def get_all_categories (res : HttpResponse) : Option (List CategoryItem) :=
  match res.body with
  | none => none
  | some (Json.obj fields) =>
    some (getItemsOfType 2 ((jsonGet fields "TreeItems").getD (Json.arr [])))
  | some _ => none

/-- C9 counterexample: a response with non-success HTTP status 500 whose body
is well-formed JSON is not rejected: the status is never read, and a category
list (here empty) is returned. -/
theorem get_all_categories_ignores_status :
    get_all_categories { status := 500, body := some (Json.obj []) } = some [] ∧
    get_all_categories { status := 500, body := some (Json.obj []) } ≠ none :=
  ⟨rfl, by simp [get_all_categories, jsonGet]⟩

/-- C9 (amended): `get_all_categories` fails exactly when the body is not a
well-formed JSON object (malformed JSON raises in `json.loads`, a non-dict
top level raises in `.get`); the HTTP status does not influence the result at
all, so a non-success response with a JSON object body still yields a
category list. -/
theorem get_all_categories_spec (res : HttpResponse) :
    (res.body = none → get_all_categories res = none) ∧
    (∀ fields, res.body = some (Json.obj fields) →
      get_all_categories res =
        some (getItemsOfType 2 ((jsonGet fields "TreeItems").getD (Json.arr [])))) ∧
    (∀ s2, get_all_categories { status := s2, body := res.body } =
      get_all_categories res) := by
  refine ⟨?_, ?_, ?_⟩
  · intro h
    simp [get_all_categories, h]
  · intro fields h
    simp [get_all_categories, h]
  · intro s2
    rfl

/-- Fields of an example taxonomy response: one category node of type 2. -/
def exFields : List (String × Json) :=
  [("TreeItems", Json.arr [Json.obj
    [("ItemType", Json.num 2), ("ItemNo", Json.num 5), ("Name", Json.str "Invoices")]])]

/-- Concrete instance of `get_all_categories_spec`: a well-formed body is
traversed into its category list. -/
theorem get_all_categories_spec_witness :
    get_all_categories { status := 200, body := some (Json.obj exFields) } =
      some (getItemsOfType 2 ((jsonGet exFields "TreeItems").getD (Json.arr []))) :=
  (get_all_categories_spec { status := 200, body := some (Json.obj exFields) }).2.1
    exFields rfl

/-! ### Category allow-list filtering
(`therefore_document_gatherer.get_therefore_documents_for_processing`,
lines 87-91) -/

/-- One discovered category, as the gatherer consumes it. -/
structure CatEntry where
  itemNo : Int
  name : String
deriving DecidableEq

/-- The skip test
`tenant_config.get('categories') and category['ItemNo'] not in tenant_config['categories']`:
`none` models an absent key (`.get` returns `None`, falsy), and the empty
list is falsy too, so in both cases the branch is never taken; only a
non-empty (truthy) allow list can skip a category. -/
def skipCategory (allow : Option (List Int)) (itemNo : Int) : Bool :=
  match allow with
  | none => false
  | some l => decide (l ≠ []) && decide (itemNo ∉ l)

/-- The categories the gatherer's loop actually processes. -/
def processedCategories (allow : Option (List Int)) (cats : List CatEntry) :
    List CatEntry :=
  cats.filter (fun c => ! skipCategory allow c.itemNo)

/-- C10: with no 'categories' key, or with an empty allow list, no category
filtering happens at all — every category discovered in the taxonomy is
processed; only a non-empty allow list restricts processing to its
members. -/
theorem category_filter_truthiness (cats : List CatEntry) :
    (∀ itemNo, skipCategory none itemNo = false) ∧
    (∀ itemNo, skipCategory (some []) itemNo = false) ∧
    processedCategories none cats = cats ∧
    processedCategories (some []) cats = cats ∧
    (∀ l, l ≠ [] → processedCategories (some l) cats =
      cats.filter (fun c => decide (c.itemNo ∈ l))) := by
  refine ⟨fun _ => rfl, fun _ => rfl, ?_, ?_, ?_⟩
  · simp [processedCategories, skipCategory]
  · simp [processedCategories, skipCategory]
  · intro l hl
    unfold processedCategories skipCategory
    congr 1
    funext c
    simp [hl]

/-- Example taxonomy of four categories. -/
def exCats : List CatEntry :=
  [{ itemNo := 1, name := "A" }, { itemNo := 2, name := "B" },
   { itemNo := 3, name := "C" }, { itemNo := 5, name := "E" }]

/-- Concrete instance of `category_filter_truthiness`: the allow list `[2, 5]`
restricts processing to categories 2 and 5. -/
theorem category_filter_truthiness_witness :
    processedCategories (some [2, 5]) exCats =
      exCats.filter (fun c => decide (c.itemNo ∈ [2, 5])) :=
  (category_filter_truthiness exCats).2.2.2.2 [2, 5] (by decide)
